import Mathlib

/-!
# Verification of the trend-sentinel anomaly-detection pipeline

Shallow embedding of `backend/sentinel_eye.py` (the anomaly-detection and
incremental-ingestion pipeline): text normalization, per-source cursor
tracking (`parse_html`), stale-content filtering (`is_old_news`),
boundary-safe pattern matching (`match_pattern`), composite pattern
synthesis and batch aggregation (`detect_anomalies`), baseline loading
(`fetch_remote_baselines` / `load_json`), spike scoring, and alert
citation collection (`send_alert`).

Texts are modelled as `List Char` at the core (with `String` wrappers),
machine floats of the baseline table as exact rationals `ℚ`, Python dicts
as insertion-ordered association lists, and the I/O outcomes of the
baseline loader as explicit inductive values.
-/

namespace Sentinel

/-- Word characters of Python's Unicode `\w` (used by the `\b` boundary in
`re.search`), restricted to the scripts this program processes: ASCII
alphanumerics and underscore, the Arabic/Persian letter block
U+0620–U+064A plus the extra Persian letters پ چ ژ ک گ ی, and the
Arabic-Indic and Extended Arabic-Indic digit blocks. -/
def isWordChar (c : Char) : Bool :=
  c.isAlphanum || c == '_' ||
  (0x0620 ≤ c.toNat && c.toNat ≤ 0x064A) ||
  (['پ', 'چ', 'ژ', 'ک', 'گ', 'ی'].contains c) ||
  (0x06F0 ≤ c.toNat && c.toNat ≤ 0x06F9) ||
  (0x0660 ≤ c.toNat && c.toNat ≤ 0x0669)

/-- Digit characters of Python's Unicode `\d`, restricted to the scripts
this program processes: ASCII digits and the two Arabic-Indic digit
blocks. -/
def isDigitU (c : Char) : Bool :=
  c.isDigit || (0x06F0 ≤ c.toNat && c.toNat ≤ 0x06F9) ||
  (0x0660 ≤ c.toNat && c.toNat ≤ 0x0669)

/-- Word-character test on an optional character: a position outside the
text (before the start / after the end) counts as a non-word position,
exactly as `\b` treats the ends of the subject string. -/
def isWordOpt : Option Char → Bool
  | none => false
  | some c => isWordChar c

/-- One anchored attempt of the regex `\b<term>\b` (with `term` escaped,
hence a literal) at the current position of the subject. `prev` is the
character immediately before this position, if any. For a nonempty term
the leading `\b` compares `prev` against the term's first character and
the trailing `\b` compares the term's last character against the first
character of the remaining subject; for the empty term `\b\b` degenerates
to a single boundary test at the position. -/
def matchAtPos (prev : Option Char) (term text : List Char) : Bool :=
  match term with
  | [] => isWordOpt prev != isWordOpt text.head?
  | t :: ts =>
    (isWordOpt prev != isWordChar t) &&
    List.isPrefixOf (t :: ts) text &&
    (isWordChar ((t :: ts).getLastD t) != isWordOpt (text.drop (t :: ts).length).head?)

/-- `re.search` of the anchored literal pattern `\b<term>\b`: try every
position of the subject from left to right. -/
def reSearch : Option Char → List Char → List Char → Bool
  | prev, term, [] => matchAtPos prev term []
  | prev, term, c :: rest => matchAtPos prev term (c :: rest) || reSearch (some c) term rest

/-- `Sentinel.match_pattern` on `List Char`: whole-word search of the
escaped term. (In the source the regex branch is wrapped in `try`, with a
plain-substring fallback on a compile failure; since the term is passed
through `re.escape`, compilation of the literal pattern never fails and
the fallback branch is unreachable.) -/
def matchPatternL (text term : List Char) : Bool :=
  reSearch none term text

/-- `Sentinel.match_pattern` on `String`. -/
def match_pattern (text pat : String) : Bool :=
  matchPatternL text.toList pat.toList

/-- The character immediately to the left of a match position: the last
character of the text consumed so far, or the initial context `prev` when
nothing has been consumed. Used to state what `\b` sees on the left. -/
def lastCtx (prev : Option Char) : List Char → Option Char
  | [] => prev
  | c :: cs => lastCtx (some c) cs

/-- Single-character replace-all, the semantics of Python's
`str.replace(a, b)` for one-character `a` and `b`. -/
def replaceChar (a b : Char) (s : List Char) : List Char :=
  s.map (fun c => if c == a then b else c)

/-- The normalization applied to every post text in `parse_html` (and in
`calculate_baselines`): `text.replace('ي', 'ی').replace('ك', 'ک')`,
mapping the Arabic yeh U+064A to Persian yeh U+06CC and Arabic kaf U+0643
to Persian kaf U+06A9. -/
def normalizeL (s : List Char) : List Char :=
  replaceChar 'ك' 'ک' (replaceChar 'ي' 'ی' s)

/-- Normalization on `String`. -/
def normalize (s : String) : String :=
  String.mk (normalizeL s.toList)

/-- Plain substring containment, the semantics of Python's `in` operator
on strings: the needle occurs contiguously somewhere in the haystack. -/
def containsSub (needle : List Char) : List Char → Bool
  | [] => needle.isPrefixOf []
  | c :: rest => needle.isPrefixOf (c :: rest) || containsSub needle rest

/-- The Persian month names of `is_old_news`, in calendar order. -/
def monthsFa : List String :=
  ["فروردین", "اردیبهشت", "خرداد", "تیر", "مرداد", "شهریور",
   "مهر", "آبان", "آذر", "دی", "بهمن", "اسفند"]

/-- `current_month_idx = 10  # Bahman` in `is_old_news`. -/
def currentMonthIdx : Nat := 10

/-- Whether the old-year regex `(۱۳۹\d|۱۴۰[۰-۳])` matches at the current
position: the Extended Arabic-Indic digits ۱۳۹ followed by any digit, or
۱۴۰ followed by one of ۰..۳. -/
def oldYearAt (l : List Char) : Bool :=
  match l with
  | c1 :: c2 :: c3 :: c4 :: _ =>
    (c1 == '۱' && c2 == '۳' && c3 == '۹' && isDigitU c4) ||
    (c1 == '۱' && c2 == '۴' && c3 == '۰' && (0x06F0 ≤ c4.toNat && c4.toNat ≤ 0x06F3))
  | _ => false

/-- `re.search(r'(۱۳۹\d|۱۴۰[۰-۳])', text)` as a left-to-right scan. -/
def hasOldYear : List Char → Bool
  | [] => oldYearAt []
  | c :: rest => oldYearAt (c :: rest) || hasOldYear rest

/-- `Sentinel.is_old_news`: flag text containing the old-year markers, or
containing (as a plain substring, via Python's `in`) a month name whose
index in `months_fa` is strictly below `current_month_idx`. -/
def is_old_news (text : String) : Bool :=
  hasOldYear text.toList ||
  (monthsFa.enum.any fun p => containsSub p.2.toList text.toList && decide (p.1 < currentMonthIdx))

/-- A message emitted by `parse_html`: the dict
`{'id': .., 'node': .., 'text': .., 'link': ..}`. -/
structure Msg where
  id : Nat
  node : String
  text : String
  link : String
deriving DecidableEq, Repr

/-- The `patterns` section of the configuration:
`{incidents: [...], locations: [...], status: [...]}`. -/
structure Vocab where
  incidents : List String
  locations : List String
  status : List String
deriving DecidableEq, Repr

/-- `found_incidents = [i for i in incidents if self.match_pattern(text, i)]`. -/
def foundIncidents (v : Vocab) (text : String) : List String :=
  v.incidents.filter (fun i => match_pattern text i)

/-- `found_locations = [l for l in locations if self.match_pattern(text, l)]`. -/
def foundLocations (v : Vocab) (text : String) : List String :=
  v.locations.filter (fun l => match_pattern text l)

/-- `found_status = [s for s in status if self.match_pattern(text, s)]`. -/
def foundStatus (v : Vocab) (text : String) : List String :=
  v.status.filter (fun s => match_pattern text s)

/-- The composite keys built by the nested loops
`for loc in found_locations: for inc in found_incidents:
composite = f"{inc} در {loc}"`, in loop order. -/
def compositeKeys (v : Vocab) (text : String) : List String :=
  (foundLocations v text).flatMap fun loc =>
    (foundIncidents v text).map fun inc => inc ++ " در " ++ loc

/-- All counter keys one post increments inside `detect_anomalies`, in
program order: first the composite keys of the two nested loops, then
every matched status term as a standalone pattern. -/
def postKeys (v : Vocab) (text : String) : List String :=
  compositeKeys v text ++ foundStatus v text

/-- `counts[key] = counts.get(key, 0) + 1` on an insertion-ordered
association list, the Python dict semantics: an existing key is updated
in place, a new key is appended at the end. -/
def incr (counts : List (String × Nat)) (k : String) : List (String × Nat) :=
  match counts with
  | [] => [(k, 1)]
  | (k', v) :: rest => if k' = k then (k', v + 1) :: rest else (k', v) :: incr rest k

/-- All increments performed for one surviving post. -/
def updateCounts (counts : List (String × Nat)) (keys : List String) : List (String × Nat) :=
  keys.foldl incr counts

/-- Count lookup with the dict's `get(pat, 0)` default. -/
def cLookup (counts : List (String × Nat)) (k : String) : Nat :=
  (List.lookup k counts).getD 0

/-- The aggregation loop of `detect_anomalies`: for each message in
order, skip it if its text is already in `seen_messages`, otherwise add
the text to `seen_messages`; skip it if `is_old_news`; otherwise
increment every key of `postKeys`. Returns the final batch counts. -/
def detectAux (v : Vocab) : List String → List (String × Nat) → List Msg → List (String × Nat)
  | _, counts, [] => counts
  | seen, counts, m :: ms =>
    if m.text ∈ seen then detectAux v seen counts ms
    else
      if is_old_news m.text then detectAux v (m.text :: seen) counts ms
      else detectAux v (m.text :: seen) (updateCounts counts (postKeys v m.text)) ms

/-- The batch counts accumulated by `detect_anomalies` over a run's
messages, starting from an empty `seen_messages` set and empty counts. -/
def batchCounts (v : Vocab) (msgs : List Msg) : List (String × Nat) :=
  detectAux v [] [] msgs

/-- One alert record `{'pattern': .., 'count': .., 'baseline': ..}`. -/
structure Alert where
  pattern : String
  count : Nat
  baseline : ℚ
deriving DecidableEq, Repr

/-- The spike-analysis loop of `detect_anomalies`: for each counted
pattern in dict order, skip counts below 4; look up the baseline rate
with default 0.1; alert when `count > normal_rate * 10`. Baseline rates
(floats in the source) are modelled as exact rationals. -/
def analyzeSpikes (baselines : List (String × ℚ)) : List (String × Nat) → List Alert
  | [] => []
  | (pat, count) :: rest =>
    if count < 4 then analyzeSpikes baselines rest
    else
      if ((List.lookup pat baselines).getD (1/10)) * 10 < (count : ℚ) then
        ⟨pat, count, (List.lookup pat baselines).getD (1/10)⟩ :: analyzeSpikes baselines rest
      else analyzeSpikes baselines rest

/-- `Sentinel.detect_anomalies`: aggregate the batch counts, then analyze
spikes against the baseline table. -/
def detect_anomalies (v : Vocab) (baselines : List (String × ℚ)) (msgs : List Msg) : List Alert :=
  analyzeSpikes baselines (batchCounts v msgs)

/-- One message wrapper of the scraped page, after the HTML structure has
been unpacked: the post id parsed from `data-post` (wrappers whose id
fails to parse are skipped before this point and never observed), and the
extracted text of the `tgme_widget_message_text` div, `none` when that
div is absent. `info` is the raw `data-post` value used for the link. -/
structure RawPost where
  id : Nat
  info : String
  text : Option String
deriving DecidableEq, Repr

/-- The per-wrapper loop of `parse_html`, threading the running `max_id`:
first raise `max_id` to the wrapper's id, then skip ids at or below the
stored cursor `last_id`, then skip wrappers without a text div, otherwise
emit the normalized message. Returns the emitted messages and the final
`max_id` stored back into `state['last_seen'][node]`. -/
def parseHtmlAux (node : String) (lastId : Nat) : Nat → List RawPost → List Msg × Nat
  | maxId, [] => ([], maxId)
  | maxId, p :: rest =>
    if p.id ≤ lastId then parseHtmlAux node lastId (if p.id > maxId then p.id else maxId) rest
    else
      match p.text with
      | none => parseHtmlAux node lastId (if p.id > maxId then p.id else maxId) rest
      | some t =>
        ((⟨p.id, node, normalize t, "https://t.me/" ++ p.info⟩ : Msg) ::
           (parseHtmlAux node lastId (if p.id > maxId then p.id else maxId) rest).1,
         (parseHtmlAux node lastId (if p.id > maxId then p.id else maxId) rest).2)

/-- `Sentinel.parse_html` for one source: `last_id` is the stored cursor
`state['last_seen'].get(node, 0)`; the result's second component is the
new cursor. -/
def parse_html (node : String) (lastId : Nat) (posts : List RawPost) : List Msg × Nat :=
  parseHtmlAux node lastId lastId posts

/-- The largest post id observed in a fetched set (0 when empty). -/
def largestId (posts : List RawPost) : Nat :=
  (posts.map RawPost.id).foldr max 0

/-- A parsed baseline JSON document: the value of its `baselines` key
when present (a pattern → hourly-rate table), `none` when the document
has no such key (`data.get('baselines', {})` then gives the empty
table). -/
structure BaselineDoc where
  baselines : Option (List (String × ℚ))
deriving DecidableEq, Repr

/-- Outcome of `self.session.get(remote_url)` plus `resp.json()`:
`netError` models an exception raised by the request itself;
`httpResp status parse` models a response with the given status code,
where `parse = none` means `resp.json()` raises (unparseable body). -/
inductive RemoteFetch
  | netError
  | httpResp (status : Nat) (parse : Option BaselineDoc)
deriving DecidableEq, Repr

/-- State of the local baseline file as `load_json` sees it: missing
(`os.path.exists` false), unreadable (open/`json.load` raises), or
readable with a parsed document. -/
inductive LocalFile
  | absent
  | unreadable
  | readable (doc : BaselineDoc)
deriving DecidableEq, Repr

/-- `Sentinel.load_json`: returns the parsed document, or the empty dict
`{}` (modelled as `none`: a document with no `baselines` key) when the
file is missing or any exception occurs while reading or parsing. -/
def load_json : LocalFile → Option BaselineDoc
  | .readable d => some d
  | _ => none

/-- `dict.get('baselines', {})` applied to a `load_json` result. -/
def getBaselines : Option BaselineDoc → List (String × ℚ)
  | some d => d.baselines.getD []
  | none => []

/-- `Sentinel.fetch_remote_baselines`: on a 200 response whose body
parses, return `data.get('baselines', {})`; on a request exception, a
non-200 status, or a body-parse exception, fall back to
`load_json(BASELINE_FILE).get('baselines', {})`. -/
def fetch_remote_baselines (remote : RemoteFetch) (localF : LocalFile) : List (String × ℚ) :=
  match remote with
  | .netError => getBaselines (load_json localF)
  | .httpResp status parse =>
    if status = 200 then
      match parse with
      | some d => d.baselines.getD []
      | none => getBaselines (load_json localF)
    else getBaselines (load_json localF)

/-- The keyword list `send_alert` derives from an alert's pattern:
`pat.split(" در ")` when the pattern contains `" در "`, else the pattern
itself. -/
def keywordsOf (pat : String) : List String :=
  if containsSub " در ".toList pat.toList then pat.splitOn " در " else [pat]

/-- The citation line `f"- [{m['node']}]({m['link']})"`. -/
def fmtLink (m : Msg) : String :=
  "- [" ++ m.node ++ "](" ++ m.link ++ ")"

/-- The citation loop of `send_alert`: scan the run's messages in order,
append a link for every message whose text matches all keywords, and
break as soon as 3 links have been collected. -/
def collectLinksAux (kws : List String) (acc : List String) : List Msg → List String
  | [] => acc
  | m :: ms =>
    if kws.all (fun k => match_pattern m.text k) then
      if 3 ≤ (acc ++ [fmtLink m]).length then acc ++ [fmtLink m]
      else collectLinksAux kws (acc ++ [fmtLink m]) ms
    else collectLinksAux kws acc ms

/-- The citation links of one alert, as built by `send_alert` from the
full list `all_new_msgs` of the run. -/
def alertLinks (msgs : List Msg) (pat : String) : List String :=
  collectLinksAux (keywordsOf pat) [] msgs

/-- The counterexample vocabulary for C7: each category is
duplicate-free, but an incident containing `" در "` lets two distinct
(incident, location) pairs render to the same composite key string. -/
def vocabCollide : Vocab := ⟨["a", "a در b"], ["b در c", "c"], []⟩

/-- The counterexample post for C7: it matches both incidents and both
locations of `vocabCollide` as whole words. -/
def msgCollide : Msg := ⟨1, "n", "a در b در c", "l"⟩

/-- Three posts for the spike-detector examples. -/
def msgs3 : List Msg :=
  [⟨1, "n", "sos a1", "l"⟩, ⟨2, "n", "sos a2", "l"⟩, ⟨3, "n", "sos a3", "l"⟩]

/-- Five posts for the spike-detector examples. -/
def msgs5 : List Msg :=
  [⟨1, "n", "sos a1", "l"⟩, ⟨2, "n", "sos a2", "l"⟩, ⟨3, "n", "sos a3", "l"⟩,
   ⟨4, "n", "sos a4", "l"⟩, ⟨5, "n", "sos a5", "l"⟩]

/-! ## Sanity checks -/

example : is_old_news "دیدار" = true := by decide
example : is_old_news "بهمن" = false := by decide
example : is_old_news "سال ۱۳۹۸" = true := by decide
example : match_pattern "برف در تهران" "تهران" = true := by decide
example : match_pattern "تهرانی" "تهران" = false := by decide
example : normalize "علي" = "علی" := by decide

/-! ## Helper lemmas -/

theorem normalizeL_idem (l : List Char) : normalizeL (normalizeL l) = normalizeL l := by
  induction l with
  | nil => rfl
  | cons c cs ih =>
    have hc : normalizeL (normalizeL [c]) = normalizeL [c] := by
      by_cases h1 : c = 'ي'
      · subst h1; decide
      · by_cases h2 : c = 'ك'
        · subst h2; decide
        · simp [normalizeL, replaceChar, h1, h2]
    simp only [normalizeL, replaceChar, List.map_cons, List.map_nil, List.cons.injEq,
      and_true] at hc ih ⊢
    exact ⟨hc, ih⟩

theorem parseHtmlAux_cursor (node : String) (lastId : Nat) :
    ∀ (posts : List RawPost) (maxId : Nat),
      (parseHtmlAux node lastId maxId posts).2 = max maxId (largestId posts) := by
  intro posts
  induction posts with
  | nil => intro maxId; simp [parseHtmlAux, largestId]
  | cons p rest ih =>
    intro maxId
    have hstep : (parseHtmlAux node lastId maxId (p :: rest)).2 =
        (parseHtmlAux node lastId (if p.id > maxId then p.id else maxId) rest).2 := by
      simp only [parseHtmlAux]
      split
      · rfl
      · split <;> rfl
    rw [hstep, ih]
    have hmax : (if p.id > maxId then p.id else maxId) = max maxId p.id := by
      rcases Nat.lt_or_ge maxId p.id with h | h
      · simp [h, Nat.max_eq_right (Nat.le_of_lt h)]
      · have : ¬ (p.id > maxId) := Nat.not_lt.mpr h
        simp [this, Nat.max_eq_left h]
    rw [hmax]
    have hl : largestId (p :: rest) = max p.id (largestId rest) := by
      simp [largestId, List.foldr]
    rw [hl, Nat.max_assoc]

theorem parseHtmlAux_emitted (node : String) (lastId : Nat) :
    ∀ (posts : List RawPost) (maxId : Nat) (m : Msg),
      m ∈ (parseHtmlAux node lastId maxId posts).1 → lastId < m.id := by
  intro posts
  induction posts with
  | nil => intro maxId m hm; simp [parseHtmlAux] at hm
  | cons p rest ih =>
    intro maxId m hm
    simp only [parseHtmlAux] at hm
    by_cases hle : p.id ≤ lastId
    · rw [if_pos hle] at hm
      exact ih _ m hm
    · rw [if_neg hle] at hm
      cases htext : p.text with
      | none => rw [htext] at hm; exact ih _ m hm
      | some t =>
        rw [htext] at hm
        simp only [List.mem_cons] at hm
        rcases hm with hm | hm
        · subst hm; exact Nat.lt_of_not_le hle
        · exact ih _ m hm

/-! ## Claim theorems -/

/-- **C9.** Text normalization is idempotent: applying
`text.replace('ي', 'ی').replace('ك', 'ک')` twice yields exactly the same
result as applying it once, for every input text. -/
theorem normalize_idempotent (s : String) : normalize (normalize s) = normalize s := by
  have h : (normalize s).toList = normalizeL s.toList := rfl
  show String.mk (normalizeL (normalize s).toList) = normalize s
  rw [h, normalizeL_idem]
  rfl

/-- **C8.** Baseline loading tries the remote source first and returns its
`baselines` mapping on a 200 response that parses; on a request
exception, a non-200 status, or a parse failure it returns the locally
persisted table (`load_json` of the baseline file); and when the local
file is missing or unreadable as well, the result is the empty table.
(The embedding is a total function: no outcome raises.) -/
theorem baseline_fallback :
    (∀ (d : BaselineDoc) (lf : LocalFile),
      fetch_remote_baselines (.httpResp 200 (some d)) lf = d.baselines.getD []) ∧
    (∀ lf : LocalFile,
      fetch_remote_baselines .netError lf = getBaselines (load_json lf)) ∧
    (∀ (s : Nat) (p : Option BaselineDoc) (lf : LocalFile), s ≠ 200 →
      fetch_remote_baselines (.httpResp s p) lf = getBaselines (load_json lf)) ∧
    (∀ lf : LocalFile,
      fetch_remote_baselines (.httpResp 200 none) lf = getBaselines (load_json lf)) ∧
    (∀ r : RemoteFetch, (∀ d : BaselineDoc, r ≠ .httpResp 200 (some d)) →
      fetch_remote_baselines r .absent = [] ∧ fetch_remote_baselines r .unreadable = []) := by
  refine ⟨fun d lf => rfl, fun lf => rfl, ?_, fun lf => rfl, ?_⟩
  · intro s p lf hs
    simp [fetch_remote_baselines, hs]
  · intro r hr
    cases r with
    | netError => exact ⟨rfl, rfl⟩
    | httpResp s p =>
      by_cases hs : s = 200
      · subst hs
        cases p with
        | none => exact ⟨rfl, rfl⟩
        | some d => exact absurd rfl (hr d)
      · constructor <;> simp [fetch_remote_baselines, hs, getBaselines, load_json]

theorem baseline_fallback_witness :
    fetch_remote_baselines (.httpResp 200 (some ⟨some [("p", 2)]⟩)) .absent = [("p", 2)] ∧
    fetch_remote_baselines .netError (.readable ⟨some [("q", 3)]⟩) = [("q", 3)] ∧
    fetch_remote_baselines (.httpResp 404 none) (.readable ⟨some [("q", 3)]⟩) = [("q", 3)] ∧
    fetch_remote_baselines (.httpResp 200 none) (.readable ⟨some [("q", 3)]⟩) = [("q", 3)] ∧
    fetch_remote_baselines .netError .absent = [] ∧
    fetch_remote_baselines (.httpResp 500 none) .unreadable = [] :=
  ⟨baseline_fallback.1 ⟨some [("p", 2)]⟩ .absent,
   baseline_fallback.2.1 (.readable ⟨some [("q", 3)]⟩),
   baseline_fallback.2.2.1 404 none (.readable ⟨some [("q", 3)]⟩) (by decide),
   baseline_fallback.2.2.2.1 (.readable ⟨some [("q", 3)]⟩),
   (baseline_fallback.2.2.2.2 .netError (fun d h => by cases h)).1,
   (baseline_fallback.2.2.2.2 (.httpResp 500 none) (fun d h => by simp at h)).2⟩

/-- **C3.** For every source and run, the cursor stored back by
`parse_html` equals the maximum of its previous value and the largest
post id observed in the fetched set; hence it never decreases; and every
emitted message has an id strictly above the previous cursor, so a
fetched post with id at or below the previous cursor is never emitted
for downstream processing. -/
theorem cursor_advance (node : String) (lastId : Nat) (posts : List RawPost) :
    (parse_html node lastId posts).2 = max lastId (largestId posts) ∧
    lastId ≤ (parse_html node lastId posts).2 ∧
    (∀ m ∈ (parse_html node lastId posts).1, lastId < m.id) := by
  refine ⟨parseHtmlAux_cursor node lastId posts lastId, ?_, ?_⟩
  · rw [parse_html, parseHtmlAux_cursor node lastId posts lastId]
    exact Nat.le_max_left _ _
  · intro m hm
    exact parseHtmlAux_emitted node lastId posts lastId m hm

theorem cursor_advance_witness :
    (parse_html "n" 7 [⟨5, "n/5", some "old"⟩, ⟨9, "n/9", some "new"⟩]).2 = 9 ∧
    7 ≤ (parse_html "n" 7 [⟨5, "n/5", some "old"⟩, ⟨9, "n/9", some "new"⟩]).2 ∧
    (∀ m ∈ (parse_html "n" 7 [⟨5, "n/5", some "old"⟩, ⟨9, "n/9", some "new"⟩]).1, 7 < m.id) := by
  have h := cursor_advance "n" 7 [⟨5, "n/5", some "old"⟩, ⟨9, "n/9", some "new"⟩]
  exact ⟨by rw [h.1]; decide, h.2.1, h.2.2⟩

theorem detectAux_dup (v : Vocab) (m : Msg) :
    ∀ (pre : List Msg) (seen : List String) (counts : List (String × Nat)) (rest : List Msg),
      (m.text ∈ seen ∨ m.text ∈ pre.map Msg.text) →
      detectAux v seen counts (pre ++ m :: rest) = detectAux v seen counts (pre ++ rest) := by
  intro pre
  induction pre with
  | nil =>
    intro seen counts rest h
    rcases h with h | h
    · simp only [List.nil_append, detectAux, if_pos h]
    · simp at h
  | cons a pre' ih =>
    intro seen counts rest h
    simp only [List.cons_append, detectAux]
    by_cases ha : a.text ∈ seen
    · rw [if_pos ha, if_pos ha]
      apply ih
      rcases h with h | h
      · exact Or.inl h
      · simp only [List.map_cons, List.mem_cons] at h
        rcases h with h | h
        · exact Or.inl (h ▸ ha)
        · exact Or.inr h
    · have h' : m.text ∈ a.text :: seen ∨ m.text ∈ pre'.map Msg.text := by
        rcases h with h | h
        · exact Or.inl (List.mem_cons_of_mem _ h)
        · simp only [List.map_cons, List.mem_cons] at h
          rcases h with h | h
          · exact Or.inl (h ▸ List.mem_cons_self _ _)
          · exact Or.inr h
      rw [if_neg ha, if_neg ha]
      by_cases ho : is_old_news a.text = true
      · rw [if_pos ho, if_pos ho]
        exact ih _ _ _ h'
      · rw [if_neg ho, if_neg ho]
        exact ih _ _ _ h'

/-- **C2.** A surviving post's contributed pattern keys are characterized
exactly: a key is contributed iff it is the composite key of a matched
incident paired with a matched location (the full cross product), or a
matched status term standing alone; and with zero matched locations no
composite key is contributed. -/
theorem composite_cross_product (v : Vocab) (text : String) :
    (∀ p : String,
      p ∈ postKeys v text ↔
        ((∃ inc ∈ v.incidents, ∃ loc ∈ v.locations,
            match_pattern text inc = true ∧ match_pattern text loc = true ∧
            p = inc ++ " در " ++ loc) ∨
         (p ∈ v.status ∧ match_pattern text p = true))) ∧
    (foundLocations v text = [] → compositeKeys v text = []) := by
  constructor
  · intro p
    simp only [postKeys, compositeKeys, foundIncidents, foundLocations, foundStatus,
      List.mem_append, List.mem_flatMap, List.mem_map, List.mem_filter]
    constructor
    · rintro (⟨loc, ⟨hlocm, hlocp⟩, inc, ⟨hincm, hincp⟩, rfl⟩ | ⟨hsm, hsp⟩)
      · exact Or.inl ⟨inc, hincm, loc, hlocm, hincp, hlocp, rfl⟩
      · exact Or.inr ⟨hsm, hsp⟩
    · rintro (⟨inc, hincm, loc, hlocm, hincp, hlocp, rfl⟩ | ⟨hsm, hsp⟩)
      · exact Or.inl ⟨loc, ⟨hlocm, hlocp⟩, inc, ⟨hincm, hincp⟩, rfl⟩
      · exact Or.inr ⟨hsm, hsp⟩
  · intro h
    simp [compositeKeys, h]

theorem composite_cross_product_witness :
    ("B در Y" ∈ postKeys ⟨["A", "B"], ["X", "Y"], []⟩ "A B X Y") ∧
    postKeys ⟨["A", "B"], ["X", "Y"], []⟩ "A B X Y"
      = ["A در X", "B در X", "A در Y", "B در Y"] ∧
    compositeKeys ⟨["A", "B"], ["X", "Y"], []⟩ "no vocabulary words" = [] := by
  have h1 := composite_cross_product ⟨["A", "B"], ["X", "Y"], []⟩ "A B X Y"
  have h2 := composite_cross_product ⟨["A", "B"], ["X", "Y"], []⟩ "no vocabulary words"
  exact ⟨(h1.1 "B در Y").mpr (by decide), by decide, h2.2 (by decide)⟩

/-- **C5.** Within a single run, a post whose text already occurred
earlier in the batch contributes nothing: removing any later duplicate
(same text, any source) from the message list leaves the batch counts
unchanged, so duplicate text is counted at most once per run. -/
theorem duplicate_text_once (v : Vocab) (pre : List Msg) (m : Msg) (rest : List Msg)
    (h : m.text ∈ pre.map Msg.text) :
    batchCounts v (pre ++ m :: rest) = batchCounts v (pre ++ rest) :=
  detectAux_dup v m pre [] [] rest (Or.inr h)

theorem duplicate_text_once_witness :
    batchCounts ⟨[], [], ["sos"]⟩ [⟨1, "n1", "sos now", "l1"⟩, ⟨2, "n2", "sos now", "l2"⟩]
      = batchCounts ⟨[], [], ["sos"]⟩ [⟨1, "n1", "sos now", "l1"⟩] ∧
    batchCounts ⟨[], [], ["sos"]⟩ [⟨1, "n1", "sos now", "l1"⟩] = [("sos", 1)] := by
  have h := duplicate_text_once ⟨[], [], ["sos"]⟩ [⟨1, "n1", "sos now", "l1"⟩]
    ⟨2, "n2", "sos now", "l2"⟩ [] (by decide)
  exact ⟨by simpa using h, by decide⟩

theorem any_enumFrom_take (t : List Char) :
    ∀ (L : List String) (n k : Nat),
      ((L.enumFrom n).any fun q => containsSub q.2.toList t && decide (q.1 < k))
        = (L.take (k - n)).any fun m => containsSub m.toList t := by
  intro L
  induction L with
  | nil => intro n k; simp [List.enumFrom]
  | cons a l ih =>
    intro n k
    by_cases h : n < k
    · have hk : k - n = (k - (n + 1)) + 1 := by omega
      simp only [List.enumFrom, List.any_cons, hk, List.take_succ_cons]
      rw [ih (n + 1) k]
      simp [h]
    · have hk : k - n = 0 := by omega
      have hk1 : k - (n + 1) = 0 := by omega
      simp only [List.enumFrom, List.any_cons, hk, List.take_zero]
      rw [ih (n + 1) k, hk1]
      simp [h]

theorem detectAux_ext (v : Vocab) :
    ∀ (msgs : List Msg) (seen1 seen2 : List String) (counts : List (String × Nat)),
      (∀ s : String, s ∈ seen1 ↔ s ∈ seen2) →
      detectAux v seen1 counts msgs = detectAux v seen2 counts msgs := by
  intro msgs
  induction msgs with
  | nil => intro seen1 seen2 counts _; rfl
  | cons m ms ih =>
    intro seen1 seen2 counts hiff
    simp only [detectAux]
    by_cases h1 : m.text ∈ seen1
    · rw [if_pos h1, if_pos ((hiff m.text).mp h1)]
      exact ih _ _ _ hiff
    · rw [if_neg h1, if_neg (fun h => h1 ((hiff m.text).mpr h))]
      have hiff' : ∀ s : String, s ∈ m.text :: seen1 ↔ s ∈ m.text :: seen2 := by
        intro s; simp only [List.mem_cons]; rw [hiff s]
      by_cases ho : is_old_news m.text = true
      · rw [if_pos ho, if_pos ho]; exact ih _ _ _ hiff'
      · rw [if_neg ho, if_neg ho]; exact ih _ _ _ hiff'

theorem detectAux_staleSeen (v : Vocab) (t : String) (ht : is_old_news t = true) :
    ∀ (msgs : List Msg) (seen : List String) (counts : List (String × Nat)),
      detectAux v (t :: seen) counts msgs = detectAux v seen counts msgs := by
  intro msgs
  induction msgs with
  | nil => intro seen counts; rfl
  | cons m ms ih =>
    intro seen counts
    simp only [detectAux]
    by_cases h1 : m.text ∈ seen
    · rw [if_pos (List.mem_cons_of_mem _ h1), if_pos h1]
      exact ih _ _
    · by_cases h2 : m.text = t
      · have hmem : m.text ∈ t :: seen := by rw [h2]; exact List.mem_cons_self _ _
        have hstale : is_old_news m.text = true := by rw [h2]; exact ht
        rw [if_pos hmem, if_neg h1, if_pos hstale, h2]
      · have hnot : m.text ∉ t :: seen := by
          simp only [List.mem_cons]
          rintro (h | h)
          · exact h2 h
          · exact h1 h
        rw [if_neg hnot, if_neg h1]
        by_cases ho : is_old_news m.text = true
        · rw [if_pos ho, if_pos ho]
          calc detectAux v (m.text :: t :: seen) counts ms
              = detectAux v (t :: m.text :: seen) counts ms := by
                refine detectAux_ext v ms _ _ _ ?_
                intro s; simp only [List.mem_cons]; tauto
            _ = detectAux v (m.text :: seen) counts ms := ih _ _
        · rw [if_neg ho, if_neg ho]
          calc detectAux v (m.text :: t :: seen) (updateCounts counts (postKeys v m.text)) ms
              = detectAux v (t :: m.text :: seen) (updateCounts counts (postKeys v m.text)) ms := by
                refine detectAux_ext v ms _ _ _ ?_
                intro s; simp only [List.mem_cons]; tauto
            _ = detectAux v (m.text :: seen) (updateCounts counts (postKeys v m.text)) ms :=
                ih _ _

theorem detectAux_stale_removed (v : Vocab) (m : Msg) (hm : is_old_news m.text = true) :
    ∀ (pre : List Msg) (seen : List String) (counts : List (String × Nat)) (rest : List Msg),
      detectAux v seen counts (pre ++ m :: rest) = detectAux v seen counts (pre ++ rest) := by
  intro pre
  induction pre with
  | nil =>
    intro seen counts rest
    simp only [List.nil_append, detectAux]
    by_cases h1 : m.text ∈ seen
    · rw [if_pos h1]
    · rw [if_neg h1, if_pos hm]
      exact detectAux_staleSeen v m.text hm rest seen counts
  | cons a pre' ih =>
    intro seen counts rest
    simp only [List.cons_append, detectAux]
    by_cases ha : a.text ∈ seen
    · rw [if_pos ha, if_pos ha]; exact ih _ _ _
    · rw [if_neg ha, if_neg ha]
      by_cases ho : is_old_news a.text = true
      · rw [if_pos ho, if_pos ho]; exact ih _ _ _
      · rw [if_neg ho, if_neg ho]; exact ih _ _ _

/-- **C6.** The stale classifier returns true exactly when the text
contains an old-year marker (the regex `(۱۳۹\d|۱۴۰[۰-۳])`) or contains,
as a substring, a month name whose ordinal is strictly below the
configured current-month index 10; and any post classified stale
contributes nothing to the batch counts of the run (removing it leaves
the counts unchanged), even if its text matches vocabulary terms. -/
theorem stale_excluded :
    (∀ text : String,
      is_old_news text = true ↔
        (hasOldYear text.toList = true ∨
          ∃ m ∈ monthsFa.take currentMonthIdx, containsSub m.toList text.toList = true)) ∧
    (∀ (v : Vocab) (pre : List Msg) (m : Msg) (rest : List Msg),
      is_old_news m.text = true →
      batchCounts v (pre ++ m :: rest) = batchCounts v (pre ++ rest)) := by
  constructor
  · intro text
    unfold is_old_news
    rw [Bool.or_eq_true]
    have he : monthsFa.enum = monthsFa.enumFrom 0 := rfl
    rw [he, any_enumFrom_take text.toList monthsFa 0 currentMonthIdx, Nat.sub_zero]
    simp [List.any_eq_true]
  · intro v pre m rest hm
    exact detectAux_stale_removed v m hm pre [] [] rest

theorem stale_excluded_witness :
    (is_old_news "آذر sos" = true) ∧
    batchCounts ⟨[], [], ["sos"]⟩ [⟨1, "n", "آذر sos", "l"⟩] = [] := by
  have h := stale_excluded
  refine ⟨(h.1 "آذر sos").mpr (Or.inr ⟨"آذر", by decide, by decide⟩), ?_⟩
  have h2 := h.2 ⟨[], [], ["sos"]⟩ [] ⟨1, "n", "آذر sos", "l"⟩ [] (by decide)
  simpa using h2

theorem cLookup_cons (k' : String) (v : Nat) (rest : List (String × Nat)) (p : String) :
    cLookup ((k', v) :: rest) p = if p = k' then v else cLookup rest p := by
  by_cases h : p = k'
  · subst h; simp [cLookup, List.lookup]
  · have hb : (p == k') = false := by simp [h]
    simp [cLookup, List.lookup, hb, h]

theorem cLookup_incr : ∀ (counts : List (String × Nat)) (k p : String),
    cLookup (incr counts k) p = cLookup counts p + (if p = k then 1 else 0) := by
  intro counts k
  induction counts with
  | nil =>
    intro p
    rw [show incr [] k = [(k, 1)] from rfl, cLookup_cons]
    by_cases h : p = k <;> simp [h, cLookup, List.lookup]
  | cons kv rest ih =>
    intro p
    obtain ⟨k', v⟩ := kv
    by_cases hk : k' = k
    · rw [show incr ((k', v) :: rest) k = (k', v + 1) :: rest from by simp [incr, hk]]
      rw [cLookup_cons, cLookup_cons]
      by_cases hp : p = k'
      · have hpk : p = k := by rw [hp, hk]
        simp [hp, hpk, hk]
      · have hpk : p ≠ k := by rw [← hk]; exact hp
        simp [hp, hpk]
    · rw [show incr ((k', v) :: rest) k = (k', v) :: incr rest k from by simp [incr, hk]]
      rw [cLookup_cons, cLookup_cons]
      by_cases hp : p = k'
      · have hpk : p ≠ k := by rw [hp]; exact hk
        simp [hp, hpk, hk]
      · simp [hp, ih p]

theorem cLookup_updateCounts : ∀ (keys : List String) (counts : List (String × Nat)) (p : String),
    cLookup (updateCounts counts keys) p = cLookup counts p + keys.count p := by
  intro keys
  induction keys with
  | nil => intro counts p; simp [updateCounts]
  | cons k ks ih =>
    intro counts p
    rw [show updateCounts counts (k :: ks) = updateCounts (incr counts k) ks from rfl]
    rw [ih, cLookup_incr, List.count_cons]
    by_cases h : p = k
    · simp [h]; omega
    · simp [h, Ne.symm h]

/-- **C7 (counterexample).** The claim as stated is false: with the
duplicate-free vocabulary `vocabCollide`, the single surviving
(non-stale, non-duplicate) post `msgCollide` increments the batch count
of the pattern `"a در b در c"` by 2, not by 1, because the pairs
(`"a"`, `"b در c"`) and (`"a در b"`, `"c"`) render to the same composite
key string. -/
theorem per_post_increment_cex :
    vocabCollide.incidents.Nodup ∧ vocabCollide.locations.Nodup ∧ vocabCollide.status.Nodup ∧
    is_old_news msgCollide.text = false ∧
    ("a در b در c" ∈ postKeys vocabCollide msgCollide.text) ∧
    cLookup (batchCounts vocabCollide [msgCollide]) "a در b در c" = 2 := by
  decide

/-- **C7 (amended).** Given a vocabulary whose categories are
duplicate-free, a surviving post increments each pattern's batch count by
exactly the number of occurrences of that key in its generated key list —
in particular by exactly 1 per matched pattern whenever the post's
generated keys are pairwise distinct (no composite-key collision), and
always independently of how many times the terms occur as raw substrings
of the text. -/
theorem per_post_increment (v : Vocab) (text : String) (counts : List (String × Nat))
    (hnd : (postKeys v text).Nodup) (p : String) :
    cLookup (updateCounts counts (postKeys v text)) p
      = cLookup counts p + (if p ∈ postKeys v text then 1 else 0) := by
  rw [cLookup_updateCounts]
  by_cases h : p ∈ postKeys v text
  · rw [if_pos h, List.count_eq_one_of_mem hnd h]
  · rw [if_neg h, List.count_eq_zero_of_not_mem h]

theorem per_post_increment_witness :
    cLookup (updateCounts [] (postKeys ⟨["fire"], ["downtown"], []⟩ "fire downtown"))
      "fire در downtown" = 1 := by
  have h := per_post_increment ⟨["fire"], ["downtown"], []⟩ "fire downtown" [] (by decide)
    "fire در downtown"
  rw [h]
  have hm : "fire در downtown" ∈ postKeys ⟨["fire"], ["downtown"], []⟩ "fire downtown" := by
    decide
  simp [hm, cLookup, List.lookup]

theorem lookup_mem : ∀ (counts : List (String × Nat)) (pat : String) (count : Nat),
    List.lookup pat counts = some count → (pat, count) ∈ counts := by
  intro counts
  induction counts with
  | nil => intro pat count h; simp [List.lookup] at h
  | cons kv rest ih =>
    intro pat count h
    obtain ⟨k, v⟩ := kv
    by_cases hk : pat = k
    · subst hk
      simp [List.lookup] at h
      simp [h]
    · have hb : (pat == k) = false := by simp [hk]
      simp only [List.lookup, hb] at h
      exact List.mem_cons_of_mem _ (ih _ _ h)

theorem analyzeSpikes_mem_keys (baselines : List (String × ℚ)) :
    ∀ (counts : List (String × Nat)) (a : Alert),
      a ∈ analyzeSpikes baselines counts → a.pattern ∈ counts.map Prod.fst := by
  intro counts
  induction counts with
  | nil => intro a ha; simp [analyzeSpikes] at ha
  | cons kv rest ih =>
    intro a ha
    obtain ⟨pat, count⟩ := kv
    simp only [analyzeSpikes] at ha
    by_cases h4 : count < 4
    · rw [if_pos h4] at ha
      exact List.mem_cons_of_mem _ (ih a ha)
    · rw [if_neg h4] at ha
      by_cases hr : ((List.lookup pat baselines).getD (1/10)) * 10 < (count : ℚ)
      · rw [if_pos hr] at ha
        rcases List.mem_cons.mp ha with h | h
        · subst h; simp
        · exact List.mem_cons_of_mem _ (ih a h)
      · rw [if_neg hr] at ha
        exact List.mem_cons_of_mem _ (ih a ha)

theorem analyzeSpikes_spec (baselines : List (String × ℚ)) :
    ∀ (counts : List (String × Nat)) (pat : String) (count : Nat),
      (counts.map Prod.fst).Nodup → (pat, count) ∈ counts →
      ((∃ a ∈ analyzeSpikes baselines counts, a.pattern = pat) ↔
        (4 ≤ count ∧ ((List.lookup pat baselines).getD (1/10)) * 10 < (count : ℚ))) := by
  intro counts
  induction counts with
  | nil => intro pat count _ hmem; simp at hmem
  | cons kv rest ih =>
    intro pat count hnd hmem
    obtain ⟨p', c'⟩ := kv
    rw [List.map_cons] at hnd
    have hnd2 := List.nodup_cons.mp hnd
    rcases List.mem_cons.mp hmem with hhead | htail
    · cases hhead
      simp only [analyzeSpikes]
      by_cases h4 : count < 4
      · rw [if_pos h4]
        constructor
        · rintro ⟨a, ha, hpa⟩
          exact absurd (hpa ▸ analyzeSpikes_mem_keys baselines rest a ha) hnd2.1
        · rintro ⟨hge, _⟩
          omega
      · rw [if_neg h4]
        by_cases hr : ((List.lookup pat baselines).getD (1/10)) * 10 < (count : ℚ)
        · rw [if_pos hr]
          constructor
          · intro _
            exact ⟨Nat.le_of_not_lt h4, hr⟩
          · intro _
            exact ⟨⟨pat, count, (List.lookup pat baselines).getD (1/10)⟩,
              List.mem_cons_self _ _, rfl⟩
        · rw [if_neg hr]
          constructor
          · rintro ⟨a, ha, hpa⟩
            exact absurd (hpa ▸ analyzeSpikes_mem_keys baselines rest a ha) hnd2.1
          · rintro ⟨_, hcontra⟩
            exact absurd hcontra hr
    · have hpk : pat ∈ rest.map Prod.fst := List.mem_map.mpr ⟨(pat, count), htail, rfl⟩
      have hne : pat ≠ p' := fun h => hnd2.1 (h ▸ hpk)
      have hrest := ih pat count hnd2.2 htail
      simp only [analyzeSpikes]
      by_cases h4 : c' < 4
      · rw [if_pos h4]; exact hrest
      · rw [if_neg h4]
        by_cases hr : ((List.lookup p' baselines).getD (1/10)) * 10 < (c' : ℚ)
        · rw [if_pos hr]
          constructor
          · rintro ⟨a, ha, hpa⟩
            rcases List.mem_cons.mp ha with h | h
            · subst h
              have hp2 : p' = pat := hpa
              exact absurd hp2 (Ne.symm hne)
            · exact hrest.mp ⟨a, h, hpa⟩
          · intro hrhs
            obtain ⟨a, ha, hpa⟩ := hrest.mpr hrhs
            exact ⟨a, List.mem_cons_of_mem _ ha, hpa⟩
        · rw [if_neg hr]; exact hrest

theorem incr_keys (k : String) : ∀ (counts : List (String × Nat)),
    (incr counts k).map Prod.fst
      = if k ∈ counts.map Prod.fst then counts.map Prod.fst
        else counts.map Prod.fst ++ [k] := by
  intro counts
  induction counts with
  | nil => simp [incr]
  | cons kv rest ih =>
    obtain ⟨k', v⟩ := kv
    by_cases hk : k' = k
    · simp [incr, hk]
    · simp only [incr, if_neg hk, List.map_cons, ih]
      by_cases hmem : k ∈ rest.map Prod.fst
      · simp [hmem, List.mem_cons, Ne.symm hk]
      · simp [hmem, List.mem_cons, Ne.symm hk]

theorem updateCounts_keys_nodup : ∀ (keys : List String) (counts : List (String × Nat)),
    (counts.map Prod.fst).Nodup → ((updateCounts counts keys).map Prod.fst).Nodup := by
  intro keys
  induction keys with
  | nil => intro counts h; exact h
  | cons k ks ih =>
    intro counts h
    rw [show updateCounts counts (k :: ks) = updateCounts (incr counts k) ks from rfl]
    apply ih
    rw [incr_keys]
    by_cases hmem : k ∈ counts.map Prod.fst
    · rw [if_pos hmem]; exact h
    · rw [if_neg hmem]
      rw [List.nodup_append]
      refine ⟨h, List.nodup_singleton k, ?_⟩
      intro a hal hak
      simp only [List.mem_singleton] at hak
      exact hmem (hak ▸ hal)

theorem detectAux_keys_nodup (v : Vocab) : ∀ (msgs : List Msg) (seen : List String)
    (counts : List (String × Nat)),
    (counts.map Prod.fst).Nodup → ((detectAux v seen counts msgs).map Prod.fst).Nodup := by
  intro msgs
  induction msgs with
  | nil => intro seen counts h; exact h
  | cons m ms ih =>
    intro seen counts h
    simp only [detectAux]
    by_cases h1 : m.text ∈ seen
    · rw [if_pos h1]; exact ih _ _ h
    · rw [if_neg h1]
      by_cases ho : is_old_news m.text = true
      · rw [if_pos ho]; exact ih _ _ h
      · rw [if_neg ho]; exact ih _ _ (updateCounts_keys_nodup _ _ h)

/-- **C1.** For every pattern carried in the batch counts with a nonzero
count, `detect_anomalies` raises an alert for that pattern if and only if
both `4 ≤ count` and `count > baselineRate * 10`, where `baselineRate` is
the pattern's entry in the baseline table or the default rate 0.1 when
absent (`baselines.get(pat, 0.1)`). -/
theorem spike_alert_iff (v : Vocab) (baselines : List (String × ℚ)) (msgs : List Msg)
    (pat : String) (count : Nat)
    (hc : List.lookup pat (batchCounts v msgs) = some count) (hnz : count ≠ 0) :
    (∃ a ∈ detect_anomalies v baselines msgs, a.pattern = pat) ↔
      (4 ≤ count ∧ ((List.lookup pat baselines).getD (1/10)) * 10 < (count : ℚ)) := by
  have hnd : ((batchCounts v msgs).map Prod.fst).Nodup :=
    detectAux_keys_nodup v msgs [] [] (by simp)
  exact analyzeSpikes_spec baselines (batchCounts v msgs) pat count hnd
    (lookup_mem _ _ _ hc)

theorem spike_alert_iff_witness :
    (¬ ∃ a ∈ detect_anomalies ⟨[], [], ["sos"]⟩ [("sos", 1/10)] msgs3, a.pattern = "sos") ∧
    (¬ ∃ a ∈ detect_anomalies ⟨[], [], ["sos"]⟩ [("sos", 1)] msgs5, a.pattern = "sos") ∧
    (∃ a ∈ detect_anomalies ⟨[], [], ["sos"]⟩ [("sos", 1/10)] msgs5, a.pattern = "sos") := by
  refine ⟨?_, ?_, ?_⟩
  · intro hex
    have h := (spike_alert_iff ⟨[], [], ["sos"]⟩ [("sos", 1/10)] msgs3 "sos" 3
      (by decide) (by decide)).mp hex
    exact absurd h.1 (by decide)
  · intro hex
    have h := (spike_alert_iff ⟨[], [], ["sos"]⟩ [("sos", 1)] msgs5 "sos" 5
      (by decide) (by decide)).mp hex
    have hno : ¬ ((List.lookup "sos" [("sos", (1 : ℚ))]).getD (1/10)) * 10 < ((5 : Nat) : ℚ) := by
      norm_num [List.lookup]
    exact absurd h.2 hno
  · refine (spike_alert_iff ⟨[], [], ["sos"]⟩ [("sos", 1/10)] msgs5 "sos" 5
      (by decide) (by decide)).mpr ⟨by norm_num, ?_⟩
    norm_num [List.lookup]

theorem collectLinksAux_spec (kws : List String) :
    ∀ (msgs : List Msg) (acc : List String), acc.length < 3 →
      collectLinksAux kws acc msgs
        = (acc ++ (msgs.filter fun m => kws.all fun k => match_pattern m.text k).map
            fmtLink).take 3 := by
  intro msgs
  induction msgs with
  | nil =>
    intro acc hlen
    simp only [collectLinksAux, List.filter_nil, List.map_nil, List.append_nil]
    exact (List.take_of_length_le (Nat.le_of_lt hlen)).symm
  | cons m ms ih =>
    intro acc hlen
    simp only [collectLinksAux]
    by_cases hm : (kws.all fun k => match_pattern m.text k) = true
    · rw [if_pos hm, List.filter_cons, if_pos hm, List.map_cons]
      by_cases h3 : 3 ≤ (acc ++ [fmtLink m]).length
      · rw [if_pos h3]
        have hlen2 : acc.length = 2 := by
          simp only [List.length_append, List.length_cons, List.length_nil] at h3
          omega
        have h31 : (3 : Nat) = acc.length + 1 := by omega
        rw [h31, List.take_append]
        simp
      · rw [if_neg h3]
        rw [ih _ (Nat.lt_of_not_le h3)]
        simp [List.append_assoc]
    · rw [if_neg hm, List.filter_cons, if_neg hm]
      exact ih _ hlen

/-- **C10.** `send_alert` collects an alert's citations by scanning the
run's full message list — with neither the stale filter nor the
duplicate-text de-duplication applied — keeping the first (at most 3)
messages whose text matches every constituent keyword of the pattern;
consequently a post excluded from aggregation (here: a stale one that
contributed nothing to the batch counts) can still appear among the
citation links. -/
theorem alert_citations :
    (∀ (msgs : List Msg) (pat : String),
      alertLinks msgs pat
        = ((msgs.filter fun m => (keywordsOf pat).all fun k => match_pattern m.text k).map
            fmtLink).take 3) ∧
    (alertLinks [⟨1, "n", "sos دی", "L"⟩] "sos" = [fmtLink ⟨1, "n", "sos دی", "L"⟩] ∧
     is_old_news "sos دی" = true ∧
     batchCounts ⟨[], [], ["sos"]⟩ [⟨1, "n", "sos دی", "L"⟩] = []) := by
  constructor
  · intro msgs pat
    have h := collectLinksAux_spec (keywordsOf pat) msgs [] (by decide)
    simpa [alertLinks] using h
  · exact ⟨by decide, by decide, by decide⟩

theorem getLastD_mem : ∀ (l : List Char) (d : Char), l.getLastD d = d ∨ l.getLastD d ∈ l := by
  intro l
  induction l with
  | nil => intro d; exact Or.inl rfl
  | cons a l ih =>
    intro d
    rw [List.getLastD_cons]
    rcases ih a with h | h
    · rw [h]; exact Or.inr (List.mem_cons_self _ _)
    · exact Or.inr (List.mem_cons_of_mem _ h)

theorem matchAtPos_spec (prev : Option Char) (t : Char) (ts : List Char) (text : List Char)
    (hw : ∀ c ∈ t :: ts, isWordChar c = true) :
    matchAtPos prev (t :: ts) text = true ↔
      (isWordOpt prev = false ∧
        ∃ post, text = (t :: ts) ++ post ∧ isWordOpt post.head? = false) := by
  have hwt : isWordChar t = true := hw t (List.mem_cons_self _ _)
  have hwl : isWordChar ((t :: ts).getLastD t) = true := by
    rw [List.getLastD_cons]
    rcases getLastD_mem ts t with h | h
    · rw [h]; exact hwt
    · exact hw _ (List.mem_cons_of_mem _ h)
  constructor
  · intro h
    simp only [matchAtPos, Bool.and_eq_true, bne_iff_ne, ne_eq] at h
    obtain ⟨⟨h1, h2⟩, h3⟩ := h
    have hp : isWordOpt prev = false := by
      rw [hwt] at h1
      cases hv : isWordOpt prev
      · rfl
      · exact absurd hv h1
    obtain ⟨post, hpost⟩ := List.isPrefixOf_iff_prefix.mp h2
    refine ⟨hp, post, hpost.symm, ?_⟩
    rw [hwl] at h3
    have hdrop : text.drop (t :: ts).length = post := by
      rw [← hpost]; exact List.drop_left _ _
    rw [hdrop] at h3
    cases hv : isWordOpt post.head?
    · rfl
    · exact absurd hv.symm h3
  · rintro ⟨hp, post, rfl, hpost⟩
    simp only [matchAtPos, Bool.and_eq_true, bne_iff_ne, ne_eq]
    refine ⟨⟨?_, ?_⟩, ?_⟩
    · rw [hp, hwt]; simp
    · exact List.isPrefixOf_iff_prefix.mpr ⟨post, rfl⟩
    · rw [hwl, List.drop_left, hpost]; simp

theorem reSearch_spec (t : Char) (ts : List Char)
    (hw : ∀ c ∈ t :: ts, isWordChar c = true) :
    ∀ (text : List Char) (prev : Option Char),
      reSearch prev (t :: ts) text = true ↔
        ∃ pre post, text = pre ++ (t :: ts) ++ post ∧
          isWordOpt (lastCtx prev pre) = false ∧ isWordOpt post.head? = false := by
  intro text
  induction text with
  | nil =>
    intro prev
    rw [show reSearch prev (t :: ts) [] = matchAtPos prev (t :: ts) [] from rfl]
    rw [matchAtPos_spec prev t ts [] hw]
    constructor
    · rintro ⟨_, post, habs, _⟩
      exact absurd habs (by simp)
    · rintro ⟨pre, post, habs, _, _⟩
      exact absurd habs (by simp)
  | cons c rest ih =>
    intro prev
    rw [show reSearch prev (t :: ts) (c :: rest)
        = (matchAtPos prev (t :: ts) (c :: rest) || reSearch (some c) (t :: ts) rest)
        from rfl]
    rw [Bool.or_eq_true, matchAtPos_spec prev t ts (c :: rest) hw, ih (some c)]
    constructor
    · rintro (⟨hp, post, heq, hpost⟩ | ⟨pre, post, heq, hl, hr⟩)
      · exact ⟨[], post, by simpa using heq, hp, hpost⟩
      · exact ⟨c :: pre, post, by rw [heq]; simp, hl, hr⟩
    · rintro ⟨pre, post, heq, hl, hr⟩
      cases pre with
      | nil =>
        exact Or.inl ⟨hl, post, by simpa using heq, hr⟩
      | cons c' pre' =>
        have hc : c = c' ∧ rest = pre' ++ (t :: ts) ++ post := by simpa using heq
        refine Or.inr ⟨pre', post, hc.2, ?_, hr⟩
        rw [show lastCtx prev (c' :: pre') = lastCtx (some c') pre' from rfl, ← hc.1] at hl
        exact hl

/-- **C4.** Whole-word matching characterized: for a nonempty vocabulary
term consisting of word characters, `match_pattern` succeeds exactly when
the term occurs in the text as a delimited unit — an occurrence whose
left flank is the text start or a non-word character and whose right
flank is the text end or a non-word character. In particular a standalone
token (flanked by spaces or the text edges) matches, while a term
occurring only as a proper substring inside a longer word of the source
script (word characters on a flank at every occurrence) never matches. -/
theorem match_pattern_whole_word (text : List Char) (t : Char) (ts : List Char)
    (hw : ∀ c ∈ t :: ts, isWordChar c = true) :
    matchPatternL text (t :: ts) = true ↔
      ∃ pre post, text = pre ++ (t :: ts) ++ post ∧
        isWordOpt (lastCtx none pre) = false ∧ isWordOpt post.head? = false :=
  reSearch_spec t ts hw text none

theorem match_pattern_whole_word_witness :
    matchPatternL ['i', 'n', ' ', 'o', 'x'] ['o', 'x'] = true ∧
    matchPatternL ['b', 'o', 'x'] ['o', 'x'] = false := by
  constructor
  · exact (match_pattern_whole_word ['i', 'n', ' ', 'o', 'x'] 'o' ['x'] (by decide)).mpr
      ⟨['i', 'n', ' '], [], by decide, by decide, by decide⟩
  · decide

end Sentinel
